import Mathlib

set_option linter.unusedVariables false
set_option linter.unnecessarySeqFocus false

/-!
Shallow embedding of `src/attack.py`, an interactive timing side-channel attack
script, together with proofs of the specification's testable properties.

Modelling conventions, chosen once for the whole file:

* Latencies are rationals (`ℚ`).  The Python code works with floats, but every
  property at stake (ordering, medians, sentinels) is about exact comparisons of
  measured values, not rounding, so an ordered field with decidable arithmetic is
  the right carrier.
* The transport (an HTTP GET in `measure_time`) is a black box.  A `Transport`
  maps a probe string and an invocation index to `none` (the request raised:
  timeout, connection error) or `some d` (the request returned after `d`
  seconds).  The `username` and `difficulty` query parameters are fixed for a
  whole run, so they are absorbed into the transport function.
* Concurrency: `parallel_measurements` submits `measurements` futures to a
  bounded thread pool and collects them with `as_completed`, whose completion
  order is arbitrary.  The pure model takes that completion order as an explicit
  list `order` of invocation indices; a run of the real code corresponds to some
  `order` that is a permutation of `List.range measurements`.  The worker-pool
  width bounds how many requests are in flight at once and can influence only
  the completion order, so it appears as an (otherwise unused) parameter.
* Strings are `List Char`.
-/

namespace Attack

/-- Outcome stream of the network transport: for a candidate password and an
invocation index, `none` models a request that raised an exception and `some d`
a request whose response arrived after `d` seconds. -/
abbrev Transport : Type := List Char → Nat → Option ℚ

/-- Embeds `measure_time` (attack.py lines 40-47): perform one GET request and
return the elapsed time; any exception is converted to the sentinel `0.0`. -/
def measure_time (t : Transport) (pwd : List Char) (i : Nat) : ℚ :=
  match t pwd i with
  | none => 0
  | some d => d

/-- Embeds `parallel_measurements` (attack.py lines 49-58) relative to an explicit
completion order: the futures listed in `order` are collected in that order and a
result is kept only when it is strictly positive (`if t > 0`). -/
def parallel_measurements_sched (t : Transport) (pwd : List Char)
    (order : List Nat) : List ℚ :=
  (order.map (measure_time t pwd)).filter (fun x => decide (0 < x))

/-- Embeds `parallel_measurements` (attack.py lines 49-58) at the canonical
completion order `0, 1, ..., measurements - 1`.  The `workers` argument is the
thread-pool width; it bounds concurrency only, so it cannot affect the collected
values (that invariance is proved below for the length phase). -/
def parallel_measurements (t : Transport) (pwd : List Char)
    (measurements workers : Nat) : List ℚ :=
  parallel_measurements_sched t pwd (List.range measurements)

/-- Stable insertion used by `sortDescBy`: `x` is placed before the first element
whose key is not larger than `x`'s, so elements with equal keys keep their
original relative order. -/
def insertDescBy {α : Type} (key : α → ℚ) (x : α) : List α → List α
  | [] => [x]
  | y :: ys => if key y ≤ key x then x :: y :: ys else y :: insertDescBy key x ys

/-- Stable descending insertion sort by a rational key.  This embeds Python's
`list.sort(key=..., reverse=True)`, which is guaranteed stable: the output is
the unique permutation that is weakly decreasing in the key and preserves the
input order of elements with equal keys, and those three properties are proved
below (`sortDescBy_perm`, `sortDescBy_pairwise`, `sortDescBy_stable`). -/
def sortDescBy {α : Type} (key : α → ℚ) : List α → List α
  | [] => []
  | x :: xs => insertDescBy key x (sortDescBy key xs)

/-- Ascending stable sort of latencies, the `sorted(data)` step inside Python's
`statistics.median`; realised as the descending sort on negated keys. -/
def sortAsc (l : List ℚ) : List ℚ :=
  sortDescBy (fun v => -v) l

/-- Embeds `statistics.median`: middle element of the sorted data for odd length,
mean of the two middle elements for even length.  (On `[]` it is set to `0`; the
source never reaches that case because `median_time_from_list` guards it.) -/
def pyMedian (l : List ℚ) : ℚ :=
  if (sortAsc l).length % 2 = 1 then (sortAsc l).getD ((sortAsc l).length / 2) 0
  else ((sortAsc l).getD ((sortAsc l).length / 2 - 1) 0 +
        (sortAsc l).getD ((sortAsc l).length / 2) 0) / 2

/-- Embeds `median_time_from_list` (attack.py lines 60-61): the median of the
samples, or the zero sentinel for an empty sample list. -/
def median_time_from_list (times : List ℚ) : ℚ :=
  if times.isEmpty then 0 else pyMedian times

theorem insertDescBy_perm {α : Type} (key : α → ℚ) (x : α) (l : List α) :
    (insertDescBy key x l).Perm (x :: l) := by
  induction l with
  | nil => exact List.Perm.refl _
  | cons y ys ih =>
    rw [insertDescBy]
    split
    · exact List.Perm.refl _
    · exact (ih.cons y).trans (List.Perm.swap x y ys)

theorem sortDescBy_perm {α : Type} (key : α → ℚ) (l : List α) :
    (sortDescBy key l).Perm l := by
  induction l with
  | nil => exact List.Perm.refl _
  | cons x xs ih =>
    exact (insertDescBy_perm key x (sortDescBy key xs)).trans (ih.cons x)

theorem mem_insertDescBy {α : Type} {key : α → ℚ} {x z : α} {l : List α} :
    z ∈ insertDescBy key x l ↔ z = x ∨ z ∈ l := by
  rw [(insertDescBy_perm key x l).mem_iff, List.mem_cons]

theorem insertDescBy_pairwise {α : Type} {key : α → ℚ} {x : α} {l : List α}
    (h : l.Pairwise (fun a b => key b ≤ key a)) :
    (insertDescBy key x l).Pairwise (fun a b => key b ≤ key a) := by
  induction l with
  | nil => simp [insertDescBy]
  | cons y ys ih =>
    rw [List.pairwise_cons] at h
    rw [insertDescBy]
    split
    · rename_i hxy
      refine List.pairwise_cons.2 ⟨?_, List.pairwise_cons.2 h⟩
      intro z hz
      rcases List.mem_cons.1 hz with rfl | hz
      · exact hxy
      · exact le_trans (h.1 z hz) hxy
    · rename_i hxy
      push_neg at hxy
      refine List.pairwise_cons.2 ⟨?_, ih h.2⟩
      intro z hz
      rcases mem_insertDescBy.1 hz with rfl | hz
      · exact le_of_lt hxy
      · exact h.1 z hz

theorem sortDescBy_pairwise {α : Type} (key : α → ℚ) (l : List α) :
    (sortDescBy key l).Pairwise (fun a b => key b ≤ key a) := by
  induction l with
  | nil => simp [sortDescBy]
  | cons x xs ih => exact insertDescBy_pairwise ih

theorem filter_insertDescBy {α : Type} (key : α → ℚ) (m : ℚ) (x : α) (l : List α) :
    (insertDescBy key x l).filter (fun c => decide (key c = m)) =
    ((x :: l).filter (fun c => decide (key c = m))) := by
  induction l with
  | nil => rfl
  | cons y ys ih =>
    rw [insertDescBy]
    split
    · rfl
    · rename_i hxy
      push_neg at hxy
      by_cases hx : key x = m
      · have hy : ¬ key y = m := by
          intro hy
          rw [hx, hy] at hxy
          exact lt_irrefl m hxy
        simp [List.filter_cons, hx, hy, ih]
      · by_cases hy : key y = m <;> simp [List.filter_cons, hx, hy, ih]

theorem sortDescBy_stable {α : Type} (key : α → ℚ) (m : ℚ) (l : List α) :
    (sortDescBy key l).filter (fun c => decide (key c = m)) =
    l.filter (fun c => decide (key c = m)) := by
  induction l with
  | nil => rfl
  | cons x xs ih =>
    rw [sortDescBy, filter_insertDescBy]
    simp only [List.filter_cons]
    rw [ih]

theorem insertDescBy_eq_cons {α : Type} {key : α → ℚ} {x : α} {l : List α}
    (h : ∀ y ∈ l, key y ≤ key x) : insertDescBy key x l = x :: l := by
  cases l with
  | nil => rfl
  | cons y ys =>
    rw [insertDescBy, if_pos (h y (List.mem_cons_self y ys))]

theorem sortDescBy_eq_self {α : Type} {key : α → ℚ} {c : ℚ} {l : List α}
    (h : ∀ a ∈ l, key a = c) : sortDescBy key l = l := by
  induction l with
  | nil => rfl
  | cons x xs ih =>
    rw [sortDescBy, ih (fun a ha => h a (List.mem_cons_of_mem x ha)),
      insertDescBy_eq_cons]
    intro y hy
    rw [h y (List.mem_cons_of_mem x hy), h x (List.mem_cons_self x xs)]

theorem sortDescBy_length {α : Type} (key : α → ℚ) (l : List α) :
    (sortDescBy key l).length = l.length :=
  (sortDescBy_perm key l).length_eq

theorem sortAsc_perm (l : List ℚ) : (sortAsc l).Perm l :=
  sortDescBy_perm _ l

theorem sortAsc_sorted (l : List ℚ) : (sortAsc l).Pairwise (fun a b => a ≤ b) :=
  (sortDescBy_pairwise (fun v => -v) l).imp (fun h => by simpa using h)

theorem pyMedian_bounds {l : List ℚ} {mn mx : ℚ} (hne : l ≠ [])
    (hmn : ∀ x ∈ l, mn ≤ x) (hmx : ∀ x ∈ l, x ≤ mx) :
    mn ≤ pyMedian l ∧ pyMedian l ≤ mx := by
  have hperm := sortAsc_perm l
  have hpos : 0 < (sortAsc l).length := by
    rw [hperm.length_eq]
    exact List.length_pos.2 hne
  have hmem : ∀ k (hk : k < (sortAsc l).length),
      mn ≤ (sortAsc l).getD k 0 ∧ (sortAsc l).getD k 0 ≤ mx := by
    intro k hk
    rw [List.getD_eq_getElem _ _ hk]
    have hx : (sortAsc l)[k] ∈ l := hperm.mem_iff.1 (List.getElem_mem hk)
    exact ⟨hmn _ hx, hmx _ hx⟩
  unfold pyMedian
  split
  · exact hmem _ (Nat.div_lt_self hpos (by norm_num))
  · have h2 : (sortAsc l).length / 2 < (sortAsc l).length :=
      Nat.div_lt_self hpos (by norm_num)
    have h1 : (sortAsc l).length / 2 - 1 < (sortAsc l).length :=
      lt_of_le_of_lt (Nat.sub_le _ _) h2
    have b1 := hmem _ h1
    have b2 := hmem _ h2
    constructor <;> [linarith [b1.1, b2.1]; linarith [b1.2, b2.2]]

/-- The Robust Aggregator (C3): the zero sentinel on an empty sample list, and a
value between the minimum and the maximum of the samples otherwise. -/
theorem c3_robust_aggregator_between_min_and_max :
    median_time_from_list ([] : List ℚ) = 0 ∧
    ∀ (l : List ℚ) (mn mx : ℚ), l ≠ [] →
      mn ∈ l → (∀ x ∈ l, mn ≤ x) → mx ∈ l → (∀ x ∈ l, x ≤ mx) →
      mn ≤ median_time_from_list l ∧ median_time_from_list l ≤ mx := by
  refine ⟨rfl, fun l mn mx hne _ hmn _ hmx => ?_⟩
  have : median_time_from_list l = pyMedian l := by
    rw [median_time_from_list, if_neg]
    simpa [List.isEmpty_iff] using hne
  rw [this]
  exact pyMedian_bounds hne hmn hmx

/-- The module-level alphabet constant `CHARSET` (attack.py line 26).  The crack
functions below take the alphabet as an explicit `charset` parameter
generalising this process-wide constant (the spec's Run Configuration treats the
alphabet as configurable); instantiating `charset := CHARSET` recovers the
source verbatim. -/
def CHARSET : List Char := "abcdefghijklmnopqrstuvwxyz".toList

/-- The module-level probe bound `MAX_LENGTH` (attack.py line 27); likewise
generalised to a `maxLength` parameter in `find_password_length`. -/
def MAX_LENGTH : Nat := 32

/-- One Candidate Record of a ranking stage (the dicts built at attack.py lines
79, 91 and 108): the trial character, the probe sent, the aggregate (median)
latency and the number of successful samples. -/
structure Cand where
  char : Char
  pwd : List Char
  median : ℚ
  samples : Nat
deriving DecidableEq

/-- The filler computed at attack.py lines 69-71 and 100-102:
`padding = "a" * (password_length - position - 1)` where `position` is the
length of the already-known part of the password; Python string repetition
clamps a nonpositive count to the empty string, which `Int.toNat` mirrors. -/
def paddingFor (passwordLength position : Nat) : List Char :=
  List.replicate ((passwordLength : Int) - position - 1).toNat 'a'

/-- The probe `test_pwd = known_password + ch + padding` (attack.py lines 76 and
105). -/
def probeFor (known : List Char) (ch : Char) (passwordLength : Nat) : List Char :=
  known ++ ch :: paddingFor passwordLength known.length

/-- One measurement loop over the whole alphabet, the body repeated verbatim at
attack.py lines 75-79 (stage 1), 104-108 (simple mode) and 158-162 (the
quick-only reporting pass): for each alphabet symbol, build the probe, sample it
and record a Candidate Record. -/
def probeRound (t : Transport) (charset known : List Char)
    (passwordLength measurements workers : Nat) : List Cand :=
  charset.map fun ch =>
    ⟨ch, probeFor known ch passwordLength,
      median_time_from_list
        (parallel_measurements t (probeFor known ch passwordLength) measurements workers),
      (parallel_measurements t (probeFor known ch passwordLength) measurements workers).length⟩

/-- The stage-2 re-measurement of one surviving candidate (attack.py lines
86-91): the same probe string, sampled again with the full-stage parameters. -/
def remeasure (t : Transport) (fullMeasurements fullWorkers : Nat) (c : Cand) : Cand :=
  ⟨c.char, c.pwd,
    median_time_from_list (parallel_measurements t c.pwd fullMeasurements fullWorkers),
    (parallel_measurements t c.pwd fullMeasurements fullWorkers).length⟩

/-- The `debug` dictionary returned by `crack_character_with_ranking`: the
stage-1 records (sorted in place at attack.py line 82) and the stage-2 records
(sorted at line 93). -/
structure RankDebug where
  quick : List Cand
  full : List Cand
deriving DecidableEq

/-- Embeds `crack_character_with_ranking` (attack.py lines 64-95).  Stage 1
probes every alphabet symbol; the records are stably sorted by median descending
and the first `topK` survive; stage 2 re-measures exactly the survivors, sorts
again, and the head record supplies the chosen character and its median.
`none` models the `IndexError` the source raises at line 94 when the survivor
list is empty. -/
def crack_character_with_ranking (t : Transport) (charset known : List Char)
    (passwordLength quickMeasurements quickWorkers fullMeasurements fullWorkers
      topK : Nat) : Option (Char × ℚ × RankDebug) :=
  let quickSorted := sortDescBy Cand.median
    (probeRound t charset known passwordLength quickMeasurements quickWorkers)
  let fullSorted := sortDescBy Cand.median
    ((quickSorted.take topK).map (remeasure t fullMeasurements fullWorkers))
  fullSorted.head?.map fun best => (best.char, best.median, ⟨quickSorted, fullSorted⟩)

/-- Embeds `crack_character_simple` (attack.py lines 98-112): one full-strength
measurement per alphabet symbol, sorted by median descending; the head record is
the choice.  `none` models the `IndexError` at line 110 on an empty alphabet. -/
def crack_character_simple (t : Transport) (charset known : List Char)
    (passwordLength measurements workers : Nat) : Option (Char × ℚ × List Cand) :=
  let results := sortDescBy Cand.median
    (probeRound t charset known passwordLength measurements workers)
  results.head?.map fun best => (best.char, best.median, results)

/-- One record of the length-discovery phase (the dict at attack.py line 124). -/
structure LenEntry where
  length : Nat
  median : ℚ
  samples : Nat
deriving DecidableEq

/-- Python's builtin `max(xs, key=f)`: the first element attaining the maximal
key (a later element replaces the current best only on a strictly greater
key). -/
def pyMaxBy {α : Type} (key : α → ℚ) (a : α) (l : List α) : α :=
  l.foldl (fun b x => if key b < key x then x else b) a

/-- One iteration of the length loop (attack.py lines 120-125): the probe is
`len` copies of the filler `'a'`, sampled with the completion order `sched len`
and aggregated into a `LenEntry`. -/
def lengthEntry (t : Transport) (sched : Nat → List Nat) (len : Nat) : LenEntry :=
  ⟨len,
    median_time_from_list (parallel_measurements_sched t (List.replicate len 'a') (sched len)),
    (parallel_measurements_sched t (List.replicate len 'a') (sched len)).length⟩

/-- Embeds `find_password_length` (attack.py lines 115-130) relative to explicit
per-round completion orders `sched`: one `LenEntry` per candidate length
`1..maxLength`, and the result is `max(length_times, key=median)`, i.e. the
first (smallest) length attaining the maximal median.  `maxLength` generalises
the module constant `MAX_LENGTH`; `none` models the `ValueError` Python's `max`
raises on an empty sequence (`maxLength = 0`). -/
def find_password_length_sched (t : Transport) (maxLength measurements workers : Nat)
    (sched : Nat → List Nat) : Option (Nat × List LenEntry) :=
  match (List.range' 1 maxLength).map (lengthEntry t sched) with
  | [] => none
  | e :: es => some ((pyMaxBy LenEntry.median e es).length,
      (List.range' 1 maxLength).map (lengthEntry t sched))

/-- Embeds `find_password_length` at the canonical completion order. -/
def find_password_length (t : Transport) (maxLength measurements workers : Nat) :
    Option (Nat × List LenEntry) :=
  find_password_length_sched t maxLength measurements workers
    (fun _ => List.range measurements)

/-- Verdict of the validation loop in `get_int_input` (attack.py lines 311-323):
an entered value is accepted iff it lies in `[minVal, maxVal]`; otherwise the
prompt repeats without running anything else.  The `top_k` prompt (line 367)
uses `minVal = 1`, `maxVal = len(CHARSET)`. -/
def get_int_input_accepts (v minVal maxVal : Int) : Bool :=
  decide (minVal ≤ v) && decide (v ≤ maxVal)

/-- The network requests issued by the stage-1 loop of
`crack_character_with_ranking` (attack.py lines 75-79), as (probe, invocation)
pairs: one request per alphabet symbol per quick measurement.  The loop runs in
full before the survivor list is sliced at line 83, so these requests precede
any use of `top_k`. -/
def stage1Requests (charset known : List Char)
    (passwordLength quickMeasurements : Nat) : List (List Char × Nat) :=
  charset.flatMap fun ch =>
    (List.range quickMeasurements).map fun i => (probeFor known ch passwordLength, i)

/-- The per-run knobs `crack_password` receives (attack.py lines 133-138),
bundled: ranking vs. simple mode, the stage sizing parameters and the pruning
width. -/
structure CrackConfig where
  useRanking : Bool
  quickMeasurements : Nat
  quickWorkers : Nat
  fullMeasurements : Nat
  fullWorkers : Nat
  topK : Nat
  simpleMeasurements : Nat
  simpleWorkers : Nat
deriving DecidableEq

/-- One entry of the per-position trace `per_char_log` (attack.py lines
233-242), restricted to the fields the claims are about. -/
structure LogEntry where
  position : Nat
  char : Char
  selected_median : ℚ
  method : String
deriving DecidableEq

/-- The per-position choice inside the `crack_password` loop (attack.py lines
151-209): two-stage ranking when `use_ranking` is set, otherwise the simple
single-stage pass. -/
def choose_char (t : Transport) (charset : List Char) (passwordLength : Nat)
    (cfg : CrackConfig) (known : List Char) : Option (Char × ℚ × String) :=
  if cfg.useRanking then
    (crack_character_with_ranking t charset known passwordLength
      cfg.quickMeasurements cfg.quickWorkers cfg.fullMeasurements cfg.fullWorkers
      cfg.topK).map fun r => (r.1, r.2.1, "ranking")
  else
    (crack_character_simple t charset known passwordLength
      cfg.simpleMeasurements cfg.simpleWorkers).map fun r => (r.1, r.2.1, "simple")

/-- One iteration of the position loop (attack.py lines 145-242): choose the
character for the current position, append it to the discovered secret and
append one trace entry. -/
def crackStep (t : Transport) (charset : List Char) (passwordLength : Nat)
    (cfg : CrackConfig) (st : List Char × List LogEntry) :
    Option (List Char × List LogEntry) :=
  (choose_char t charset passwordLength cfg st.1).map fun r =>
    (st.1 ++ [r.1], st.2 ++ [⟨st.1.length, r.1, r.2.1, r.2.2⟩])

/-- The position loop run for a given number of iterations from a given
state. -/
def crackFrom (t : Transport) (charset : List Char) (passwordLength : Nat)
    (cfg : CrackConfig) : Nat → List Char × List LogEntry →
    Option (List Char × List LogEntry)
  | 0, st => some st
  | n + 1, st => (crackStep t charset passwordLength cfg st).bind
      (crackFrom t charset passwordLength cfg n)

/-- Embeds the `crack_password` loop (attack.py lines 133-247): starting from
the empty discovered secret and empty trace, the position loop runs exactly
`length` iterations; `none` models the `IndexError` a selection with no
candidate record would raise. -/
def crack_password (t : Transport) (charset : List Char) (length : Nat)
    (cfg : CrackConfig) : Option (List Char × List LogEntry) :=
  crackFrom t charset length cfg length ([], [])

/-- Witness for C3 at the concrete sample list `[3, 1, 2]`. -/
theorem c3_witness :
    (([3, 1, 2] : List ℚ) ≠ [] ∧ (1 : ℚ) ∈ ([3, 1, 2] : List ℚ) ∧
      (∀ x ∈ ([3, 1, 2] : List ℚ), (1 : ℚ) ≤ x) ∧ (3 : ℚ) ∈ ([3, 1, 2] : List ℚ) ∧
      (∀ x ∈ ([3, 1, 2] : List ℚ), x ≤ (3 : ℚ))) ∧
    1 ≤ median_time_from_list ([3, 1, 2] : List ℚ) ∧
      median_time_from_list ([3, 1, 2] : List ℚ) ≤ 3 :=
  ⟨⟨by decide, by decide, by decide, by decide, by decide⟩,
    c3_robust_aggregator_between_min_and_max.2 [3, 1, 2] 1 3
      (by decide) (by decide) (by decide) (by decide) (by decide)⟩

theorem measure_time_eq_zero_iff (t : Transport) (pwd : List Char) (i : Nat) :
    measure_time t pwd i = 0 ↔ (t pwd i = none ∨ t pwd i = some 0) := by
  cases h : t pwd i <;> simp [measure_time, h]

/-- C5: the Concurrent Sampler keeps only latencies of successful invocations:
every returned sample is strictly positive and stems from a `some` outcome of
one of the round's invocations, the zero value never appears among the samples,
and a round in which all `n` invocations fail returns the empty list rather
than an error. -/
theorem c5_sampler_only_successful_samples (t : Transport) (pwd : List Char)
    (n : Nat) (order : List Nat) (hord : order.Perm (List.range n)) :
    (∀ x ∈ parallel_measurements_sched t pwd order,
        0 < x ∧ ∃ i ∈ order, t pwd i = some x) ∧
    (0 : ℚ) ∉ parallel_measurements_sched t pwd order ∧
    ((∀ i < n, t pwd i = none) → parallel_measurements_sched t pwd order = []) := by
  have hmain : ∀ x ∈ parallel_measurements_sched t pwd order,
      0 < x ∧ ∃ i ∈ order, t pwd i = some x := by
    intro x hx
    rw [parallel_measurements_sched, List.mem_filter] at hx
    obtain ⟨hmem, hposb⟩ := hx
    have hpos : (0 : ℚ) < x := of_decide_eq_true hposb
    obtain ⟨i, hi, hmi⟩ := List.mem_map.1 hmem
    refine ⟨hpos, i, hi, ?_⟩
    cases h : t pwd i with
    | none =>
      simp only [measure_time, h] at hmi
      exact absurd (hmi ▸ hpos) (lt_irrefl x)
    | some d =>
      simp only [measure_time, h] at hmi
      rw [hmi]
  refine ⟨hmain, ?_, ?_⟩
  · intro h0
    exact absurd (hmain 0 h0).1 (lt_irrefl 0)
  · intro hfail
    rw [parallel_measurements_sched]
    rw [List.filter_eq_nil_iff]
    intro a ha
    obtain ⟨i, hi, rfl⟩ := List.mem_map.1 ha
    have hin : i < n := List.mem_range.1 (hord.mem_iff.1 hi)
    simp [measure_time, hfail i hin]

/-- Witness for C5: a round of two invocations that both fail. -/
theorem c5_witness :
    (([1, 0] : List Nat).Perm (List.range 2)) ∧
    ((∀ x ∈ parallel_measurements_sched (fun _ _ => none) [] [1, 0],
        0 < x ∧ ∃ i ∈ ([1, 0] : List Nat), (fun (_ : List Char) (_ : Nat) =>
          (none : Option ℚ)) [] i = some x) ∧
      (0 : ℚ) ∉ parallel_measurements_sched (fun _ _ => none) [] [1, 0] ∧
      ((∀ i < 2, (fun (_ : List Char) (_ : Nat) => (none : Option ℚ)) [] i = none) →
        parallel_measurements_sched (fun _ _ => none) [] [1, 0] = [])) :=
  ⟨by decide, c5_sampler_only_successful_samples (fun _ _ => none) [] 2 [1, 0] (by decide)⟩

/-- C10: the Probe Executor folds every failure into the latency value `0.0`,
the Sampler discards exactly the zero results, a successful request measured at
exactly zero is indistinguishable from a failure and contributes no sample,
every returned sample is strictly positive, and at most `n` samples are
returned. -/
theorem c10_zero_sentinel_encoding (t : Transport) (pwd : List Char)
    (n : Nat) (order : List Nat) (hord : order.Perm (List.range n))
    (hnonneg : ∀ j d, t pwd j = some d → 0 ≤ d) :
    (∀ i, measure_time t pwd i = 0 ↔ (t pwd i = none ∨ t pwd i = some 0)) ∧
    parallel_measurements_sched t pwd order =
      (order.map (measure_time t pwd)).filter (fun x => decide (x ≠ 0)) ∧
    (∀ x ∈ parallel_measurements_sched t pwd order, 0 < x) ∧
    (parallel_measurements_sched t pwd order).length ≤ n ∧
    ∀ (t' : Transport) (i : Nat), t pwd i = some 0 → t' pwd i = none →
      (∀ j, j ≠ i → t' pwd j = t pwd j) →
      parallel_measurements_sched t' pwd order = parallel_measurements_sched t pwd order := by
  have hge : ∀ j, 0 ≤ measure_time t pwd j := by
    intro j
    cases h : t pwd j with
    | none => rw [measure_time, h]
    | some d => rw [measure_time, h]; exact hnonneg j d h
  refine ⟨measure_time_eq_zero_iff t pwd, ?_, ?_, ?_, ?_⟩
  · rw [parallel_measurements_sched]
    apply List.filter_congr
    intro a ha
    obtain ⟨i, hi, rfl⟩ := List.mem_map.1 ha
    rw [decide_eq_decide]
    constructor
    · intro h; exact ne_of_gt h
    · intro h; exact lt_of_le_of_ne (hge i) (Ne.symm h)
  · intro x hx
    rw [parallel_measurements_sched, List.mem_filter] at hx
    exact of_decide_eq_true hx.2
  · calc (parallel_measurements_sched t pwd order).length
        ≤ (order.map (measure_time t pwd)).length := List.length_filter_le _ _
      _ = order.length := List.length_map _ _
      _ = (List.range n).length := hord.length_eq
      _ = n := List.length_range n
  · intro t' i hzero hnone hagree
    rw [parallel_measurements_sched, parallel_measurements_sched]
    have : measure_time t' pwd = measure_time t pwd := by
      funext j
      by_cases hj : j = i
      · subst hj
        rw [measure_time, measure_time, hzero, hnone]
      · rw [measure_time, measure_time, hagree j hj]
    rw [this]

/-- Witness for C10: a round of two invocations, one succeeding with latency 1,
one measured at exactly zero, in completion order `[1, 0]`. -/
theorem c10_witness :
    (([1, 0] : List Nat).Perm (List.range 2) ∧
      (∀ j d, (fun (_ : List Char) (i : Nat) => if i = 0 then some (1 : ℚ) else some 0)
          [] j = some d → 0 ≤ d)) ∧
    ((∀ i, measure_time (fun _ i => if i = 0 then some 1 else some 0) [] i = 0 ↔
        ((fun (_ : List Char) (i : Nat) => if i = 0 then some (1 : ℚ) else some 0) [] i
            = none ∨
          (fun (_ : List Char) (i : Nat) => if i = 0 then some (1 : ℚ) else some 0) [] i
            = some 0)) ∧
      parallel_measurements_sched (fun _ i => if i = 0 then some 1 else some 0) [] [1, 0] =
        (([1, 0] : List Nat).map
          (measure_time (fun _ i => if i = 0 then some 1 else some 0) [])).filter
          (fun x => decide (x ≠ 0)) ∧
      (∀ x ∈ parallel_measurements_sched
          (fun _ i => if i = 0 then some 1 else some 0) [] [1, 0], 0 < x) ∧
      (parallel_measurements_sched
          (fun _ i => if i = 0 then some 1 else some 0) [] [1, 0]).length ≤ 2 ∧
      ∀ (t' : Transport) (i : Nat),
        (fun (_ : List Char) (i : Nat) => if i = 0 then some (1 : ℚ) else some 0) [] i
            = some 0 →
        t' [] i = none → (∀ j, j ≠ i → t' [] j =
          (fun (_ : List Char) (i : Nat) => if i = 0 then some (1 : ℚ) else some 0) [] j) →
        parallel_measurements_sched t' [] [1, 0] =
          parallel_measurements_sched (fun _ i => if i = 0 then some 1 else some 0) [] [1, 0]) :=
  ⟨⟨by decide, fun j d h => by
      by_cases hj : j = 0 <;> simp [hj] at h <;> rw [← h] <;> norm_num⟩,
    c10_zero_sentinel_encoding (fun _ i => if i = 0 then some 1 else some 0) [] 2 [1, 0]
      (by decide)
      (fun j d h => by
        by_cases hj : j = 0 <;> simp [hj] at h <;> rw [← h] <;> norm_num)⟩

theorem probeRound_length (t : Transport) (charset known : List Char)
    (len m w : Nat) : (probeRound t charset known len m w).length = charset.length :=
  List.length_map _ _

theorem probeRound_map_char (t : Transport) (charset known : List Char)
    (len m w : Nat) : (probeRound t charset known len m w).map Cand.char = charset := by
  rw [probeRound, List.map_map]
  exact List.map_id'' (fun x => rfl) charset

theorem map_char_map_remeasure (t : Transport) (fm fw : Nat) (l : List Cand) :
    (l.map (remeasure t fm fw)).map Cand.char = l.map Cand.char := by
  simp [remeasure, List.map_map, Function.comp]

/-- The Two-Stage Ranker and the single-stage mode (C1): stage 1 produces one
record per alphabet symbol; the stage-1 ranking is a permutation of those
records, weakly decreasing in the aggregate median and stable (records with
equal medians keep the alphabet order); the stage-2 survivors are exactly its
first `topK` records, `min topK |charset|` of them, re-measured; and
single-stage mode examines every symbol exactly once, one record per symbol. -/
theorem c1_two_stage_pruning_and_single_stage (t : Transport)
    (charset known : List Char) (len qm qw fm fw sm sw topK : Nat)
    (hk : 1 ≤ topK) (hcs : charset ≠ []) :
    (sortDescBy Cand.median (probeRound t charset known len qm qw)).Perm
        (probeRound t charset known len qm qw) ∧
    (sortDescBy Cand.median (probeRound t charset known len qm qw)).Pairwise
        (fun a b => b.median ≤ a.median) ∧
    (∀ m : ℚ, (sortDescBy Cand.median (probeRound t charset known len qm qw)).filter
          (fun c => decide (c.median = m)) =
        (probeRound t charset known len qm qw).filter (fun c => decide (c.median = m))) ∧
    ((sortDescBy Cand.median (probeRound t charset known len qm qw)).take topK).length
        = min topK charset.length ∧
    (∃ c md dbg, crack_character_with_ranking t charset known len qm qw fm fw topK
          = some (c, md, dbg) ∧
        dbg.quick = sortDescBy Cand.median (probeRound t charset known len qm qw) ∧
        dbg.full.Perm
          (((sortDescBy Cand.median (probeRound t charset known len qm qw)).take
              topK).map (remeasure t fm fw)) ∧
        (dbg.full.map Cand.char).Perm
          (((sortDescBy Cand.median (probeRound t charset known len qm qw)).take
              topK).map Cand.char) ∧
        dbg.full.length = min topK charset.length) ∧
    (probeRound t charset known len sm sw).map Cand.char = charset ∧
    (∃ c md res, crack_character_simple t charset known len sm sw = some (c, md, res) ∧
        res.Perm (probeRound t charset known len sm sw) ∧
        res.length = charset.length) := by
  have hcl : 0 < charset.length := List.length_pos.2 hcs
  refine ⟨sortDescBy_perm _ _, sortDescBy_pairwise _ _,
    fun m => sortDescBy_stable _ m _, ?_, ?_, probeRound_map_char t charset known len sm sw, ?_⟩
  · rw [List.length_take, sortDescBy_length, probeRound_length]
  · -- the two-stage ranker
    have hlen : (sortDescBy Cand.median
        (((sortDescBy Cand.median (probeRound t charset known len qm qw)).take topK).map
          (remeasure t fm fw))).length = min topK charset.length := by
      rw [sortDescBy_length, List.length_map, List.length_take, sortDescBy_length,
        probeRound_length]
    have hpos : 0 < min topK charset.length := lt_min hk hcl
    have hne : sortDescBy Cand.median
        (((sortDescBy Cand.median (probeRound t charset known len qm qw)).take topK).map
          (remeasure t fm fw)) ≠ [] := by
      intro h
      rw [h] at hlen
      simp only [List.length_nil] at hlen
      omega
    obtain ⟨b, bs, heq⟩ := List.exists_cons_of_ne_nil hne
    refine ⟨b.char, b.median,
      ⟨sortDescBy Cand.median (probeRound t charset known len qm qw),
        sortDescBy Cand.median
          (((sortDescBy Cand.median (probeRound t charset known len qm qw)).take topK).map
            (remeasure t fm fw))⟩, ?_, rfl, ?_, ?_, hlen⟩
    · simp only [crack_character_with_ranking]
      rw [heq]
      rfl
    · exact sortDescBy_perm _ _
    · have h1 := (sortDescBy_perm Cand.median
        (((sortDescBy Cand.median (probeRound t charset known len qm qw)).take topK).map
          (remeasure t fm fw))).map Cand.char
      rw [map_char_map_remeasure] at h1
      exact h1
  · -- the single-stage mode
    have hne : sortDescBy Cand.median (probeRound t charset known len sm sw) ≠ [] := by
      intro h
      have := congrArg List.length h
      rw [sortDescBy_length, probeRound_length, List.length_nil] at this
      omega
    obtain ⟨b, bs, heq⟩ := List.exists_cons_of_ne_nil hne
    refine ⟨b.char, b.median, sortDescBy Cand.median (probeRound t charset known len sm sw),
      ?_, sortDescBy_perm _ _, ?_⟩
    · simp only [crack_character_simple]
      rw [heq]
      rfl
    · rw [sortDescBy_length, probeRound_length]

/-- Witness for C1 at a two-letter alphabet, pruning width 1, and a transport
answering every request after one second. -/
theorem c1_witness :
    (1 ≤ 1 ∧ (['a', 'b'] : List Char) ≠ []) ∧
    ((sortDescBy Cand.median (probeRound (fun _ _ => some 1) ['a', 'b'] [] 2 1 1)).Perm
        (probeRound (fun _ _ => some 1) ['a', 'b'] [] 2 1 1) ∧
      (sortDescBy Cand.median (probeRound (fun _ _ => some 1) ['a', 'b'] [] 2 1 1)).Pairwise
        (fun a b => b.median ≤ a.median) ∧
      (∀ m : ℚ, (sortDescBy Cand.median
            (probeRound (fun _ _ => some 1) ['a', 'b'] [] 2 1 1)).filter
            (fun c => decide (c.median = m)) =
          (probeRound (fun _ _ => some 1) ['a', 'b'] [] 2 1 1).filter
            (fun c => decide (c.median = m))) ∧
      ((sortDescBy Cand.median (probeRound (fun _ _ => some 1) ['a', 'b'] [] 2 1 1)).take
          1).length = min 1 (['a', 'b'] : List Char).length ∧
      (∃ c md dbg, crack_character_with_ranking (fun _ _ => some 1) ['a', 'b'] [] 2 1 1 1 1 1
            = some (c, md, dbg) ∧
          dbg.quick = sortDescBy Cand.median
            (probeRound (fun _ _ => some 1) ['a', 'b'] [] 2 1 1) ∧
          dbg.full.Perm
            (((sortDescBy Cand.median
                (probeRound (fun _ _ => some 1) ['a', 'b'] [] 2 1 1)).take 1).map
              (remeasure (fun _ _ => some 1) 1 1)) ∧
          (dbg.full.map Cand.char).Perm
            (((sortDescBy Cand.median
                (probeRound (fun _ _ => some 1) ['a', 'b'] [] 2 1 1)).take 1).map
              Cand.char) ∧
          dbg.full.length = min 1 (['a', 'b'] : List Char).length) ∧
      (probeRound (fun _ _ => some 1) ['a', 'b'] [] 2 1 1).map Cand.char = ['a', 'b'] ∧
      (∃ c md res, crack_character_simple (fun _ _ => some 1) ['a', 'b'] [] 2 1 1
            = some (c, md, res) ∧
          res.Perm (probeRound (fun _ _ => some 1) ['a', 'b'] [] 2 1 1) ∧
          res.length = (['a', 'b'] : List Char).length)) :=
  ⟨⟨le_refl 1, by decide⟩,
    c1_two_stage_pruning_and_single_stage (fun _ _ => some 1) ['a', 'b'] [] 2 1 1 1 1 1 1 1
      (le_refl 1) (by decide)⟩

theorem parallel_all_fail {t : Transport} (hfail : ∀ pwd i, t pwd i = none)
    (pwd : List Char) (m w : Nat) : parallel_measurements t pwd m w = [] := by
  rw [parallel_measurements, parallel_measurements_sched, List.filter_eq_nil_iff]
  intro a ha
  obtain ⟨i, hi, rfl⟩ := List.mem_map.1 ha
  simp [measure_time, hfail]

theorem probeRound_all_fail {t : Transport} (hfail : ∀ pwd i, t pwd i = none)
    (charset known : List Char) (len m w : Nat) :
    ∀ c ∈ probeRound t charset known len m w, c.median = 0 ∧ c.samples = 0 := by
  intro c hc
  rw [probeRound, List.mem_map] at hc
  obtain ⟨ch, hch, rfl⟩ := hc
  simp [parallel_all_fail hfail, median_time_from_list]

theorem remeasure_all_fail {t : Transport} (hfail : ∀ pwd i, t pwd i = none)
    (fm fw : Nat) (c : Cand) : (remeasure t fm fw c).median = 0 := by
  simp [remeasure, parallel_all_fail hfail, median_time_from_list]

/-- C4: an empty sample set aggregates to the zero sentinel and a stage-1 record
with zero samples carries the sentinel median; in any ranking a zero-median
record is never placed above a record with positive median; and in a round where
every probe fails, every candidate carries the sentinel, the ranking keeps the
alphabet order, the selection does not crash, and the first alphabet symbol is
chosen with median zero. -/
theorem c4_all_fail_round_falls_back_to_alphabet_order (t : Transport)
    (charset known : List Char) (len qm qw fm fw topK : Nat) (hk : 1 ≤ topK)
    (hfail : ∀ pwd i, t pwd i = none) :
    median_time_from_list ([] : List ℚ) = 0 ∧
    (∀ (t' : Transport) (m' w' : Nat), ∀ c ∈ probeRound t' charset known len m' w',
        c.samples = 0 → c.median = 0) ∧
    (∀ l : List Cand, (sortDescBy Cand.median l).Pairwise
        (fun a b => a.median = 0 → ¬ 0 < b.median)) ∧
    (∀ c ∈ probeRound t charset known len qm qw, c.median = 0 ∧ c.samples = 0) ∧
    sortDescBy Cand.median (probeRound t charset known len qm qw) =
      probeRound t charset known len qm qw ∧
    (∀ ch cs, charset = ch :: cs →
      ∃ dbg, crack_character_with_ranking t charset known len qm qw fm fw topK =
        some (ch, 0, dbg)) := by
  refine ⟨rfl, ?_, ?_, probeRound_all_fail hfail charset known len qm qw, ?_, ?_⟩
  · intro t' m' w' c hc hs
    rw [probeRound, List.mem_map] at hc
    obtain ⟨ch, hch, rfl⟩ := hc
    simp only at hs
    rw [List.length_eq_zero] at hs
    simp [hs, median_time_from_list]
  · intro l
    refine (sortDescBy_pairwise Cand.median l).imp ?_
    intro a b hba h0 hpos
    rw [h0] at hba
    exact absurd (lt_of_lt_of_le hpos hba) (lt_irrefl 0)
  · exact sortDescBy_eq_self
      (fun c hc => (probeRound_all_fail hfail charset known len qm qw c hc).1)
  · intro ch cs hcseq
    subst hcseq
    obtain ⟨k, rfl⟩ : ∃ k, topK = k + 1 := ⟨topK - 1, by omega⟩
    have hqs : sortDescBy Cand.median (probeRound t (ch :: cs) known len qm qw) =
        probeRound t (ch :: cs) known len qm qw :=
      sortDescBy_eq_self
        (fun c hc => (probeRound_all_fail hfail (ch :: cs) known len qm qw c hc).1)
    simp only [crack_character_with_ranking, hqs]
    rw [probeRound, List.map_cons, List.take_succ_cons, List.map_cons]
    have hall : ∀ a ∈ remeasure t fm fw
          ((fun c => (⟨c, probeFor known c len,
            median_time_from_list
              (parallel_measurements t (probeFor known c len) qm qw),
            (parallel_measurements t (probeFor known c len) qm qw).length⟩ : Cand)) ch) ::
          ((List.take k (List.map (fun c => (⟨c, probeFor known c len,
            median_time_from_list
              (parallel_measurements t (probeFor known c len) qm qw),
            (parallel_measurements t (probeFor known c len) qm qw).length⟩ : Cand)) cs)).map
            (remeasure t fm fw)),
        Cand.median a = 0 := by
      intro a ha
      rcases List.mem_cons.1 ha with rfl | ha
      · exact remeasure_all_fail hfail fm fw _
      · obtain ⟨b, hb, rfl⟩ := List.mem_map.1 ha
        exact remeasure_all_fail hfail fm fw b
    rw [sortDescBy_eq_self hall]
    simp only [List.head?_cons, Option.map_some']
    have hchar : (remeasure t fm fw
        ((fun c => (⟨c, probeFor known c len,
          median_time_from_list (parallel_measurements t (probeFor known c len) qm qw),
          (parallel_measurements t (probeFor known c len) qm qw).length⟩ : Cand)) ch)).char
        = ch := rfl
    rw [hchar, remeasure_all_fail hfail]
    exact ⟨_, rfl⟩

/-- Witness for C4: a round over the alphabet `['a', 'b']` in which every probe
fails. -/
theorem c4_witness :
    (1 ≤ 1 ∧ ∀ (pwd : List Char) (i : Nat), (fun (_ : List Char) (_ : Nat) =>
        (none : Option ℚ)) pwd i = none) ∧
    (median_time_from_list ([] : List ℚ) = 0 ∧
      (∀ (t' : Transport) (m' w' : Nat), ∀ c ∈ probeRound t' ['a', 'b'] [] 2 m' w',
          c.samples = 0 → c.median = 0) ∧
      (∀ l : List Cand, (sortDescBy Cand.median l).Pairwise
          (fun a b => a.median = 0 → ¬ 0 < b.median)) ∧
      (∀ c ∈ probeRound (fun _ _ => none) ['a', 'b'] [] 2 1 1,
          c.median = 0 ∧ c.samples = 0) ∧
      sortDescBy Cand.median (probeRound (fun _ _ => none) ['a', 'b'] [] 2 1 1) =
        probeRound (fun _ _ => none) ['a', 'b'] [] 2 1 1 ∧
      (∀ ch cs, (['a', 'b'] : List Char) = ch :: cs →
        ∃ dbg, crack_character_with_ranking (fun _ _ => none) ['a', 'b'] [] 2 1 1 1 1 1 =
          some (ch, 0, dbg))) :=
  ⟨⟨le_refl 1, fun _ _ => rfl⟩,
    c4_all_fail_round_falls_back_to_alphabet_order (fun _ _ => none) ['a', 'b'] [] 2 1 1 1 1 1
      (le_refl 1) (fun _ _ => rfl)⟩

theorem crack_ranking_isSome (t : Transport) (charset known : List Char)
    (len qm qw fm fw topK : Nat) (hk : 1 ≤ topK) (hcs : charset ≠ []) :
    ∃ r, crack_character_with_ranking t charset known len qm qw fm fw topK = some r := by
  have hlen : (sortDescBy Cand.median
      (((sortDescBy Cand.median (probeRound t charset known len qm qw)).take topK).map
        (remeasure t fm fw))).length = min topK charset.length := by
    rw [sortDescBy_length, List.length_map, List.length_take, sortDescBy_length,
      probeRound_length]
  have hne : sortDescBy Cand.median
      (((sortDescBy Cand.median (probeRound t charset known len qm qw)).take topK).map
        (remeasure t fm fw)) ≠ [] := by
    intro h
    rw [h] at hlen
    simp only [List.length_nil] at hlen
    have := lt_min hk (List.length_pos.2 hcs)
    omega
  obtain ⟨b, bs, heq⟩ := List.exists_cons_of_ne_nil hne
  refine ⟨(b.char, b.median,
    ⟨sortDescBy Cand.median (probeRound t charset known len qm qw),
      sortDescBy Cand.median
        (((sortDescBy Cand.median (probeRound t charset known len qm qw)).take topK).map
          (remeasure t fm fw))⟩), ?_⟩
  simp only [crack_character_with_ranking]
  rw [heq]
  rfl

theorem crack_simple_isSome (t : Transport) (charset known : List Char)
    (len m w : Nat) (hcs : charset ≠ []) :
    ∃ r, crack_character_simple t charset known len m w = some r := by
  have hne : sortDescBy Cand.median (probeRound t charset known len m w) ≠ [] := by
    intro h
    have := congrArg List.length h
    rw [sortDescBy_length, probeRound_length, List.length_nil] at this
    exact hcs (List.length_eq_zero.1 this)
  obtain ⟨b, bs, heq⟩ := List.exists_cons_of_ne_nil hne
  refine ⟨(b.char, b.median, sortDescBy Cand.median (probeRound t charset known len m w)),
    ?_⟩
  simp only [crack_character_simple]
  rw [heq]
  rfl

/-- C7: at the final position (known prefix length plus one equals the target
length) the padding is empty, every probe is the known part followed by the
trial character with total length exactly the target, and both the two-stage
and the simple mode complete without error. -/
theorem c7_final_position_empty_padding (t : Transport) (charset known : List Char)
    (len m w : Nat) (hlen : known.length + 1 = len) (hcs : charset ≠ []) :
    paddingFor len known.length = [] ∧
    (∀ ch, probeFor known ch len = known ++ [ch]) ∧
    (∀ c ∈ probeRound t charset known len m w,
        c.pwd = known ++ [c.char] ∧ c.pwd.length = len) ∧
    (∃ r, crack_character_simple t charset known len m w = some r) ∧
    (∀ qm qw fm fw topK, 1 ≤ topK →
      ∃ r, crack_character_with_ranking t charset known len qm qw fm fw topK = some r) := by
  have hpad : paddingFor len known.length = [] := by
    rw [paddingFor]
    have h0 : ((len : Int) - known.length - 1).toNat = 0 := by omega
    rw [h0]
    rfl
  have hprobe : ∀ ch, probeFor known ch len = known ++ [ch] := by
    intro ch
    rw [probeFor, hpad]
  refine ⟨hpad, hprobe, ?_, crack_simple_isSome t charset known len m w hcs,
    fun qm qw fm fw topK hk => crack_ranking_isSome t charset known len qm qw fm fw topK hk hcs⟩
  intro c hc
  rw [probeRound, List.mem_map] at hc
  obtain ⟨ch, hch, rfl⟩ := hc
  refine ⟨hprobe ch, ?_⟩
  rw [show (⟨ch, probeFor known ch len,
      median_time_from_list (parallel_measurements t (probeFor known ch len) m w),
      (parallel_measurements t (probeFor known ch len) m w).length⟩ : Cand).pwd =
      probeFor known ch len from rfl, hprobe ch]
  rw [List.length_append, List.length_singleton]
  exact hlen

/-- Witness for C7: a two-letter alphabet at the final position of a target of
length 4, with a transport answering after one second. -/
theorem c7_witness :
    ((['x', 'y', 'z'] : List Char).length + 1 = 4 ∧ (['a', 'b'] : List Char) ≠ []) ∧
    (paddingFor 4 (['x', 'y', 'z'] : List Char).length = [] ∧
      (∀ ch, probeFor ['x', 'y', 'z'] ch 4 = ['x', 'y', 'z'] ++ [ch]) ∧
      (∀ c ∈ probeRound (fun _ _ => some 1) ['a', 'b'] ['x', 'y', 'z'] 4 1 1,
          c.pwd = ['x', 'y', 'z'] ++ [c.char] ∧ c.pwd.length = 4) ∧
      (∃ r, crack_character_simple (fun _ _ => some 1) ['a', 'b'] ['x', 'y', 'z'] 4 1 1
          = some r) ∧
      (∀ qm qw fm fw topK, 1 ≤ topK →
        ∃ r, crack_character_with_ranking (fun _ _ => some 1) ['a', 'b'] ['x', 'y', 'z'] 4
            qm qw fm fw topK = some r)) :=
  ⟨⟨rfl, by decide⟩,
    c7_final_position_empty_padding (fun _ _ => some 1) ['a', 'b'] ['x', 'y', 'z'] 4 1 1
      rfl (by decide)⟩

theorem choose_char_isSome (t : Transport) (charset : List Char) (len : Nat)
    (cfg : CrackConfig) (known : List Char) (hcs : charset ≠ [])
    (hk : cfg.useRanking = true → 1 ≤ cfg.topK) :
    ∃ r, choose_char t charset len cfg known = some r := by
  rw [choose_char]
  by_cases h : cfg.useRanking
  · rw [if_pos h]
    obtain ⟨r, hr⟩ := crack_ranking_isSome t charset known len cfg.quickMeasurements
      cfg.quickWorkers cfg.fullMeasurements cfg.fullWorkers cfg.topK (hk h) hcs
    rw [hr]
    exact ⟨_, rfl⟩
  · rw [if_neg h]
    obtain ⟨r, hr⟩ := crack_simple_isSome t charset known len cfg.simpleMeasurements
      cfg.simpleWorkers hcs
    rw [hr]
    exact ⟨_, rfl⟩

theorem crackFrom_succ (t : Transport) (charset : List Char) (len : Nat)
    (cfg : CrackConfig) (n : Nat) (st : List Char × List LogEntry) :
    crackFrom t charset len cfg (n + 1) st =
      (crackFrom t charset len cfg n st).bind (crackStep t charset len cfg) := by
  induction n generalizing st with
  | zero =>
    show (crackStep t charset len cfg st).bind (crackFrom t charset len cfg 0)
      = crackStep t charset len cfg st
    cases h : crackStep t charset len cfg st with
    | none => rfl
    | some s => rfl
  | succ n ih =>
    show (crackStep t charset len cfg st).bind (crackFrom t charset len cfg (n + 1)) =
      ((crackStep t charset len cfg st).bind (crackFrom t charset len cfg n)).bind
        (crackStep t charset len cfg)
    cases crackStep t charset len cfg st with
    | none => rfl
    | some s => exact ih s

/-- C8: for every target length `n`, the recovery loop of the Orchestrator runs
exactly `n` iterations: after `i` iterations the discovered secret has `i`
characters and the trace `i` entries, each iteration appends exactly one
character and one trace entry to the previous state (no backtracking), and on
completion the secret has length `n` and the trace `n` entries. -/
theorem c8_orchestrator_loop_append_only (t : Transport) (charset : List Char)
    (n : Nat) (cfg : CrackConfig) (hcs : charset ≠ [])
    (hk : cfg.useRanking = true → 1 ≤ cfg.topK) :
    (∀ i : Nat, ∃ d lg, crackFrom t charset n cfg i ([], []) = some (d, lg) ∧
        d.length = i ∧ lg.length = i) ∧
    (∀ i d lg d2 lg2, crackFrom t charset n cfg i ([], []) = some (d, lg) →
        crackFrom t charset n cfg (i + 1) ([], []) = some (d2, lg2) →
        (∃ c, d2 = d ++ [c]) ∧ ∃ e, lg2 = lg ++ [e]) ∧
    (∃ d lg, crack_password t charset n cfg = some (d, lg) ∧
        d.length = n ∧ lg.length = n) := by
  have hstate : ∀ i : Nat, ∃ d lg, crackFrom t charset n cfg i ([], []) = some (d, lg) ∧
      d.length = i ∧ lg.length = i := by
    intro i
    induction i with
    | zero => exact ⟨[], [], rfl, rfl, rfl⟩
    | succ i ih =>
      obtain ⟨d, lg, heq, hd, hlg⟩ := ih
      rw [crackFrom_succ, heq]
      obtain ⟨r, hr⟩ := choose_char_isSome t charset n cfg d hcs hk
      refine ⟨d ++ [r.1], lg ++ [⟨d.length, r.1, r.2.1, r.2.2⟩], ?_, ?_, ?_⟩
      · show crackStep t charset n cfg (d, lg) = _
        rw [crackStep]
        show (choose_char t charset n cfg d).map _ = _
        rw [hr]
        rfl
      · rw [List.length_append, List.length_singleton, hd]
      · rw [List.length_append, List.length_singleton, hlg]
  refine ⟨hstate, ?_, ?_⟩
  · intro i d lg d2 lg2 h1 h2
    rw [crackFrom_succ, h1] at h2
    have h2' : crackStep t charset n cfg (d, lg) = some (d2, lg2) := h2
    rw [crackStep] at h2'
    cases hc : choose_char t charset n cfg d with
    | none =>
      rw [show choose_char t charset n cfg (d, lg).1 = choose_char t charset n cfg d
        from rfl, hc] at h2'
      simp at h2'
    | some r =>
      rw [show choose_char t charset n cfg (d, lg).1 = choose_char t charset n cfg d
        from rfl, hc] at h2'
      simp only [Option.map_some', Option.some.injEq, Prod.mk.injEq] at h2'
      exact ⟨⟨r.1, h2'.1.symm⟩, ⟨⟨(d, lg).1.length, r.1, r.2.1, r.2.2⟩, h2'.2.symm⟩⟩
  · obtain ⟨d, lg, heq, hd, hlg⟩ := hstate n
    exact ⟨d, lg, heq, hd, hlg⟩

/-- Witness for C8: target length 2, two-letter alphabet, ranking mode with
pruning width 1, transport answering after one second. -/
theorem c8_witness :
    ((['a', 'b'] : List Char) ≠ [] ∧
      ((⟨true, 1, 1, 1, 1, 1, 1, 1⟩ : CrackConfig).useRanking = true →
        1 ≤ (⟨true, 1, 1, 1, 1, 1, 1, 1⟩ : CrackConfig).topK)) ∧
    ((∀ i : Nat, ∃ d lg, crackFrom (fun _ _ => some 1) ['a', 'b'] 2
          ⟨true, 1, 1, 1, 1, 1, 1, 1⟩ i ([], []) = some (d, lg) ∧
        d.length = i ∧ lg.length = i) ∧
      (∀ i d lg d2 lg2, crackFrom (fun _ _ => some 1) ['a', 'b'] 2
            ⟨true, 1, 1, 1, 1, 1, 1, 1⟩ i ([], []) = some (d, lg) →
          crackFrom (fun _ _ => some 1) ['a', 'b'] 2
            ⟨true, 1, 1, 1, 1, 1, 1, 1⟩ (i + 1) ([], []) = some (d2, lg2) →
          (∃ c, d2 = d ++ [c]) ∧ ∃ e, lg2 = lg ++ [e]) ∧
      (∃ d lg, crack_password (fun _ _ => some 1) ['a', 'b'] 2
          ⟨true, 1, 1, 1, 1, 1, 1, 1⟩ = some (d, lg) ∧
        d.length = 2 ∧ lg.length = 2)) :=
  ⟨⟨by decide, fun _ => le_refl 1⟩,
    c8_orchestrator_loop_append_only (fun _ _ => some 1) ['a', 'b'] 2
      ⟨true, 1, 1, 1, 1, 1, 1, 1⟩ (by decide) (fun _ => le_refl 1)⟩

theorem pyMaxBy_cons {α : Type} (key : α → ℚ) (a b : α) (l : List α) :
    pyMaxBy key a (b :: l) = pyMaxBy key (if key a < key b then b else a) l := rfl

theorem pyMaxBy_spec {α : Type} (key : α → ℚ) (l : List α) :
    ∀ a : α,
      (∀ x ∈ a :: l, key x ≤ key (pyMaxBy key a l)) ∧
      ∃ pre post, a :: l = pre ++ pyMaxBy key a l :: post ∧
        ∀ y ∈ pre, key y < key (pyMaxBy key a l) := by
  induction l with
  | nil =>
    intro a
    constructor
    · intro x hx
      rcases List.mem_cons.1 hx with rfl | h
      · exact le_refl _
      · exact absurd h (List.not_mem_nil x)
    · exact ⟨[], [], rfl, fun y hy => absurd hy (List.not_mem_nil y)⟩
  | cons b bs ih =>
    intro a
    rw [pyMaxBy_cons]
    by_cases hab : key a < key b
    · rw [if_pos hab]
      obtain ⟨hbound, pre, post, hsplit, hpre⟩ := ih b
      have hb_le : key b ≤ key (pyMaxBy key b bs) := hbound b (List.mem_cons_self b bs)
      constructor
      · intro x hx
        rcases List.mem_cons.1 hx with rfl | hx
        · exact le_of_lt (lt_of_lt_of_le hab hb_le)
        · exact hbound x hx
      · refine ⟨a :: pre, post, ?_, ?_⟩
        · rw [List.cons_append, ← hsplit]
        · intro y hy
          rcases List.mem_cons.1 hy with rfl | hy
          · exact lt_of_lt_of_le hab hb_le
          · exact hpre y hy
    · rw [if_neg hab]
      push_neg at hab
      obtain ⟨hbound, pre, post, hsplit, hpre⟩ := ih a
      have ha_le : key a ≤ key (pyMaxBy key a bs) := hbound a (List.mem_cons_self a bs)
      constructor
      · intro x hx
        rcases List.mem_cons.1 hx with rfl | hx
        · exact ha_le
        · rcases List.mem_cons.1 hx with rfl | hx
          · exact le_trans hab ha_le
          · exact hbound x (List.mem_cons_of_mem a hx)
      · cases pre with
        | nil =>
          rw [List.nil_append] at hsplit
          injection hsplit with h1 h2
          refine ⟨[], b :: bs, ?_, fun y hy => absurd hy (List.not_mem_nil y)⟩
          rw [List.nil_append, ← h1]
        | cons p ps =>
          rw [List.cons_append] at hsplit
          injection hsplit with h1 h2
          subst h1
          refine ⟨a :: b :: ps, post, ?_, ?_⟩
          · rw [List.cons_append, List.cons_append, ← h2]
          · intro y hy
            have hpa : key a < key (pyMaxBy key a bs) :=
              hpre a (List.mem_cons_self a ps)
            rcases List.mem_cons.1 hy with rfl | hy
            · exact hpa
            · rcases List.mem_cons.1 hy with rfl | hy
              · exact lt_of_le_of_lt hab hpa
              · exact hpre y (List.mem_cons_of_mem a hy)

theorem parallel_const {c : ℚ} (hc : 0 < c) (t : Transport) (pwd : List Char)
    (hval : ∀ i, t pwd i = some c) (n : Nat) :
    parallel_measurements_sched t pwd (List.range n) = List.replicate n c := by
  rw [parallel_measurements_sched]
  have hmap : (List.range n).map (measure_time t pwd) = List.replicate n c := by
    rw [List.eq_replicate_iff]
    constructor
    · rw [List.length_map, List.length_range]
    · intro b hb
      obtain ⟨i, hi, rfl⟩ := List.mem_map.1 hb
      rw [measure_time, hval i]
  rw [hmap, List.filter_eq_self.2]
  intro a ha
  rw [List.eq_of_mem_replicate ha]
  exact decide_eq_true hc

theorem median_time_replicate (n : Nat) (c : ℚ) (hn : n ≠ 0) :
    median_time_from_list (List.replicate n c) = c := by
  have hne : List.replicate n c ≠ [] := by
    intro h
    have := congrArg List.length h
    rw [List.length_replicate] at this
    exact hn this
  have hmn : ∀ x ∈ List.replicate n c, c ≤ x := by
    intro x hx
    rw [List.eq_of_mem_replicate hx]
  have hmx : ∀ x ∈ List.replicate n c, x ≤ c := by
    intro x hx
    rw [List.eq_of_mem_replicate hx]
  have heq : median_time_from_list (List.replicate n c) = pyMedian (List.replicate n c) := by
    rw [median_time_from_list, if_neg]
    simpa [List.isEmpty_iff] using hne
  rw [heq]
  have hb := pyMedian_bounds hne hmn hmx
  exact le_antisymm hb.2 hb.1

theorem find_password_length_sched_spec (t : Transport) (L n w : Nat)
    (sched : Nat → List Nat) (hL : 1 ≤ L) :
    ∃ best entries, find_password_length_sched t L n w sched = some (best, entries) ∧
      entries.map LenEntry.length = List.range' 1 L ∧
      entries.length = L ∧
      (∀ x ∈ entries, x = lengthEntry t sched x.length) ∧
      ∃ be ∈ entries, be.length = best ∧
        (∀ x ∈ entries, x.median ≤ be.median) ∧
        (∀ x ∈ entries, be.median ≤ x.median → be.length ≤ x.length) := by
  obtain ⟨L', rfl⟩ : ∃ L', L = L' + 1 := ⟨L - 1, by omega⟩
  have hcons : (List.range' 1 (L' + 1)).map (lengthEntry t sched) =
      lengthEntry t sched 1 :: (List.range' 2 L').map (lengthEntry t sched) := by
    rw [List.range'_succ, List.map_cons]
  have hpw : ((List.range' 1 (L' + 1)).map (lengthEntry t sched)).Pairwise
      (fun u v => u.length < v.length) := by
    rw [List.pairwise_map]
    exact List.pairwise_lt_range' 1 (L' + 1)
  obtain ⟨hbound, pre, post, hsplit, hpre⟩ :=
    pyMaxBy_spec LenEntry.median ((List.range' 2 L').map (lengthEntry t sched))
      (lengthEntry t sched 1)
  rw [← hcons] at hbound hsplit
  refine ⟨(pyMaxBy LenEntry.median (lengthEntry t sched 1)
      ((List.range' 2 L').map (lengthEntry t sched))).length,
    (List.range' 1 (L' + 1)).map (lengthEntry t sched), ?_, ?_, ?_, ?_, ?_⟩
  · rw [find_password_length_sched, hcons]
  · rw [List.map_map]
    exact List.map_id'' (fun x => rfl) _
  · rw [List.length_map, List.length_range']
  · intro x hx
    obtain ⟨len, hlen, rfl⟩ := List.mem_map.1 hx
    rfl
  · refine ⟨pyMaxBy LenEntry.median (lengthEntry t sched 1)
      ((List.range' 2 L').map (lengthEntry t sched)), ?_, rfl, hbound, ?_⟩
    · rw [hsplit]
      exact List.mem_append.2 (Or.inr (List.mem_cons_self _ _))
    · intro x hx hmed
      rw [hsplit] at hx
      rcases List.mem_append.1 hx with hxpre | hxc
      · exact absurd hmed (not_le.2 (hpre x hxpre))
      · rcases List.mem_cons.1 hxc with rfl | hxpost
        · exact le_refl _
        · have hsub : (pyMaxBy LenEntry.median (lengthEntry t sched 1)
              ((List.range' 2 L').map (lengthEntry t sched)) :: post).Pairwise
              (fun u v => u.length < v.length) := by
            rw [hsplit] at hpw
            exact hpw.sublist (List.sublist_append_right pre _)
          exact le_of_lt ((List.pairwise_cons.1 hsub).1 x hxpost)

/-- C2: the Length Estimator builds one record per candidate length from 1 to
the bound, each aggregating the samples of a probe of that many filler
characters, and returns the smallest length whose aggregate median is maximal;
in particular, with a transport answering probes of length 5 after one second
and every other probe after a tenth of a second, bound 8 yields length 5. -/
theorem c2_length_estimator_smallest_maximum (t : Transport) (L n w : Nat)
    (hL : 1 ≤ L) :
    (∃ best entries, find_password_length t L n w = some (best, entries) ∧
      entries.map LenEntry.length = List.range' 1 L ∧
      entries.length = L ∧
      (∀ x ∈ entries, x = lengthEntry t (fun _ => List.range n) x.length) ∧
      ∃ be ∈ entries, be.length = best ∧
        (∀ x ∈ entries, x.median ≤ be.median) ∧
        (∀ x ∈ entries, be.median ≤ x.median → be.length ≤ x.length)) ∧
    (1 ≤ n → ∃ es, find_password_length
        (fun pwd _ => some (if pwd.length = 5 then 1 else 1 / 10)) 8 n w
        = some (5, es)) := by
  constructor
  · exact find_password_length_sched_spec t L n w (fun _ => List.range n) hL
  · intro hn
    obtain ⟨best, entries, heq, hmaplen, hlenL, hform, be, hbe_mem, hbe_len, hmax, hmin⟩ :=
      find_password_length_sched_spec
        (fun pwd _ => some (if pwd.length = 5 then 1 else 1 / 10)) 8 n w
        (fun _ => List.range n) (by norm_num)
    have hmed : ∀ x ∈ entries, x.median = if x.length = 5 then (1 : ℚ) else 1 / 10 := by
      intro x hx
      have hc : (0 : ℚ) < if x.length = 5 then 1 else 1 / 10 := by
        by_cases h5 : x.length = 5 <;> simp [h5]
      have hval : ∀ i, (fun (pwd : List Char) (_ : Nat) =>
          some (if pwd.length = 5 then (1 : ℚ) else 1 / 10)) (List.replicate x.length 'a') i
          = some (if x.length = 5 then (1 : ℚ) else 1 / 10) := by
        intro i
        simp [List.length_replicate]
      have hx' := hform x hx
      calc x.median
          = (lengthEntry (fun pwd _ => some (if pwd.length = 5 then (1 : ℚ) else 1 / 10))
              (fun _ => List.range n) x.length).median := by rw [← hx']
        _ = median_time_from_list (parallel_measurements_sched
              (fun pwd _ => some (if pwd.length = 5 then (1 : ℚ) else 1 / 10))
              (List.replicate x.length 'a') (List.range n)) := rfl
        _ = if x.length = 5 then (1 : ℚ) else 1 / 10 := by
              rw [parallel_const hc _ _ hval n, median_time_replicate n _ (by omega)]
    have h5 : (5 : Nat) ∈ entries.map LenEntry.length := by
      rw [hmaplen]
      decide
    obtain ⟨e5, he5_mem, he5_len⟩ := List.mem_map.1 h5
    have he5_med : e5.median = 1 := by
      rw [hmed e5 he5_mem, he5_len]
      norm_num
    have h1le : (1 : ℚ) ≤ be.median := he5_med ▸ hmax e5 he5_mem
    have hbe5 : be.length = 5 := by
      by_contra hne5
      have hb := hmed be hbe_mem
      rw [if_neg hne5] at hb
      rw [hb] at h1le
      norm_num at h1le
    refine ⟨entries, ?_⟩
    show find_password_length_sched
      (fun pwd _ => some (if pwd.length = 5 then 1 else 1 / 10)) 8 n w
      (fun _ => List.range n) = some (5, entries)
    rw [heq, ← hbe_len, hbe5]

/-- Witness for C2 at bound 3, one sample per probe, and the scenario transport
with one sample. -/
theorem c2_witness :
    1 ≤ 3 ∧
    ((∃ best entries, find_password_length (fun _ _ => some 1) 3 1 1
          = some (best, entries) ∧
        entries.map LenEntry.length = List.range' 1 3 ∧
        entries.length = 3 ∧
        (∀ x ∈ entries, x = lengthEntry (fun _ _ => some 1)
          (fun _ => List.range 1) x.length) ∧
        ∃ be ∈ entries, be.length = best ∧
          (∀ x ∈ entries, x.median ≤ be.median) ∧
          (∀ x ∈ entries, be.median ≤ x.median → be.length ≤ x.length)) ∧
      (1 ≤ 1 → ∃ es, find_password_length
          (fun pwd _ => some (if pwd.length = 5 then 1 else 1 / 10)) 8 1 1
          = some (5, es))) :=
  ⟨by norm_num,
    c2_length_estimator_smallest_maximum (fun _ _ => some 1) 3 1 1 (by norm_num)⟩

theorem median_time_perm {l l' : List ℚ} (h : l.Perm l') :
    median_time_from_list l = median_time_from_list l' := by
  have hsort : sortAsc l = sortAsc l' :=
    List.eq_of_perm_of_sorted ((sortAsc_perm l).trans (h.trans (sortAsc_perm l').symm))
      (sortAsc_sorted l) (sortAsc_sorted l')
  rw [median_time_from_list, median_time_from_list, h.isEmpty_eq, pyMedian, pyMedian, hsort]

/-- C9: the Length Estimator is deterministic: for a fixed transport its result
is independent of the per-round completion orders (any schedules that are
permutations of the canonical round) and of the worker-pool widths, so two runs
with identical bound and sample count return the same length. -/
theorem c9_length_estimator_idempotent (t : Transport) (L n w1 w2 : Nat)
    (s1 s2 : Nat → List Nat)
    (h1 : ∀ len, (s1 len).Perm (List.range n))
    (h2 : ∀ len, (s2 len).Perm (List.range n)) :
    find_password_length_sched t L n w1 s1 = find_password_length_sched t L n w2 s2 := by
  have hentry : lengthEntry t s1 = lengthEntry t s2 := by
    funext len
    have hperm : (parallel_measurements_sched t (List.replicate len 'a') (s1 len)).Perm
        (parallel_measurements_sched t (List.replicate len 'a') (s2 len)) := by
      rw [parallel_measurements_sched, parallel_measurements_sched]
      exact (((h1 len).trans (h2 len).symm).map _).filter _
    rw [lengthEntry, lengthEntry, median_time_perm hperm, hperm.length_eq]
  rw [find_password_length_sched, find_password_length_sched, hentry]

/-- Witness for C9: bound 3, two samples per probe, the two reversed completion
orders, and different pool widths. -/
theorem c9_witness :
    ((∀ len : Nat, ([1, 0] : List Nat).Perm (List.range 2)) ∧
      (∀ len : Nat, ([0, 1] : List Nat).Perm (List.range 2))) ∧
    find_password_length_sched (fun _ _ => some 1) 3 2 1 (fun _ => [1, 0]) =
      find_password_length_sched (fun _ _ => some 1) 3 2 2 (fun _ => [0, 1]) := by
  have hp1 : ([1, 0] : List Nat).Perm (List.range 2) := by decide
  have hp2 : ([0, 1] : List Nat).Perm (List.range 2) := by decide
  exact ⟨⟨fun _ => hp1, fun _ => hp2⟩,
    c9_length_estimator_idempotent (fun _ _ => some 1) 3 2 1 2 (fun _ => [1, 0])
      (fun _ => [0, 1]) (fun _ => hp1) (fun _ => hp2)⟩

/-- C6 counterexample: invoked with pruning width 0, the ranking function is
not rejected up front: its stage-1 loop has one probe request per alphabet
symbol (`stage1Requests` is non-empty, and those requests are issued before the
survivor list is sliced), and only afterwards does the selection fail (`none`,
the `IndexError` at attack.py line 94) — so a probe request is sent before the
error surfaces, contradicting the claim. -/
theorem c6_counterexample :
    crack_character_with_ranking (fun _ _ => some 1) CHARSET [] 3 1 1 1 1 0 = none ∧
    stage1Requests CHARSET [] 3 1 ≠ [] := by
  exact ⟨rfl, by decide⟩

/-- C6 amended: the interactive configuration surface rejects a pruning width
of zero (the `top_k` prompt accepts only values in `[1, len(CHARSET)]` and
re-asks otherwise, before any attack phase runs), and the alphabet is a fixed
non-empty constant, so neither misconfiguration reaches the attack through the
program's entry point; the ranking function itself performs no validation:
called with width 0 it returns the error outcome while its stage-1 loop holds a
request for every alphabet symbol. -/
theorem c6_configuration_validation (v : Int) (t : Transport) (known : List Char)
    (len qm qw fm fw : Nat) :
    (get_int_input_accepts v 1 (CHARSET.length : Int) = true → 1 ≤ v) ∧
    CHARSET ≠ [] ∧
    crack_character_with_ranking t CHARSET known len qm qw fm fw 0 = none ∧
    (1 ≤ qm → stage1Requests CHARSET known len qm ≠ []) := by
  refine ⟨?_, by decide, rfl, ?_⟩
  · intro h
    rw [get_int_input_accepts, Bool.and_eq_true, decide_eq_true_eq, decide_eq_true_eq] at h
    exact h.1
  · intro hqm h
    have hmem : (probeFor known 'a' len, 0) ∈ stage1Requests CHARSET known len qm := by
      rw [stage1Requests, List.mem_flatMap]
      refine ⟨'a', by decide, ?_⟩
      rw [List.mem_map]
      exact ⟨0, List.mem_range.2 (by omega), rfl⟩
    rw [h] at hmem
    exact absurd hmem (List.not_mem_nil _)

/-- Witness for the amended C6 at the accepted configuration value 3. -/
theorem c6_amended_witness :
    (get_int_input_accepts 3 1 (CHARSET.length : Int) = true → 1 ≤ (3 : Int)) ∧
    CHARSET ≠ [] ∧
    crack_character_with_ranking (fun _ _ => some 1) CHARSET [] 3 1 1 1 1 0 = none ∧
    (1 ≤ 1 → stage1Requests CHARSET [] 3 1 ≠ []) :=
  c6_configuration_validation 3 (fun _ _ => some 1) [] 3 1 1 1 1

end Attack
